import Mathlib

/-!
Verification of the report text splitter.

Shallow embedding of `src/text_splitter.py` (class `TextSplitter`).

External collaborators are modeled as parameters:
* `ct : String → Nat` — the token counter (`count_tokens`, tiktoken);
* `st : String → List String` — the recursive character text splitter
  (`RecursiveCharacterTextSplitter.split_text`).

Python semantics that matter for the claims are modeled explicitly:
* `tables_by_page` is a dict whose values are lists of *shared, mutable*
  dicts. `_split_report` appends those dicts to the output `chunks` list
  by reference and later mutates their `id`/`type` keys in place, so the
  output list holds references into the table store, resolved against the
  *final* state of the store when the document is serialized. The
  embedding keeps the store in the traversal state (`SplitState`), stores
  table output entries as references (`Entry.tableRef`), and resolves all
  entries against the final store.
* Content chunks are fresh dicts built per page, never aliased, so they
  are stored by value.
-/

/-- A page of the parsed document: `{page: int, text: str}`. -/
structure Page where
  page : Int
  text : String
  deriving DecidableEq, Repr

/-- One `{information_block: str}` element of `serialized.information_blocks`. -/
structure InfoBlock where
  information_block : String
  deriving DecidableEq, Repr

/-- The `serialized` value of a table record. -/
structure Serialized where
  information_blocks : List InfoBlock
  deriving DecidableEq, Repr

/-- A table record of the artifact; `serialized = none` models a dict
lacking the `serialized` key. -/
structure TableRecord where
  page : Int
  table_id : String
  serialized : Option Serialized
  deriving DecidableEq, Repr

/-- The table artifact: `parsed_report.get('tables', [])` (a missing
`tables` key is the empty list). -/
structure TableArtifact where
  tables : List TableRecord
  deriving DecidableEq, Repr

/-- A table-candidate dict as built by `_get_serialized_tables_by_page`;
`id` and `type` are absent (`none`) until `_split_report` mutates them
in place. -/
structure TableCand where
  page : Int
  text : String
  table_id : String
  length_tokens : Nat
  id : Option Nat
  type : Option String
  deriving DecidableEq, Repr

/-- The `tables_by_page` dict: insertion-ordered association list from
page number to the list of table-candidate dicts for that page. -/
abbrev TablesByPage := List (Int × List TableCand)

/-- A content pre-chunk as returned by `_split_page`
(`{page, length_tokens, text}`). -/
structure PreChunk where
  page : Int
  length_tokens : Nat
  text : String
  deriving DecidableEq, Repr

/-- An output chunk as observed in the serialized output document.
`id`/`type` are `Option` because table dicts acquire them by mutation;
`table_id` is present only on table chunks. -/
structure Chunk where
  page : Int
  text : String
  length_tokens : Nat
  id : Option Nat
  type : Option String
  table_id : Option String
  deriving DecidableEq, Repr

/-- An entry of the in-progress `chunks` list: content dicts are owned by
the list, table dicts are references into `tables_by_page` (page key and
index within that page's list). -/
inductive Entry where
  | content (page : Int) (text : String) (length_tokens : Nat) (id : Nat) (type : String)
  | tableRef (p : Int) (i : Nat)
  deriving DecidableEq, Repr

/-- An input/output document: `content.pages`, plus `content.chunks` once
`_split_report` has populated it. -/
structure Document where
  pages : List Page
  chunks : Option (List Chunk)
  deriving DecidableEq, Repr

/-- Dict lookup `tables_by_page[p]` (first entry with the key; keys are
unique by construction). -/
def lookupPage : TablesByPage → Int → Option (List TableCand)
  | [], _ => none
  | (q, l) :: m, p => if q = p then some l else lookupPage m p

/-- `tables_by_page[p]` with a missing key read as the empty list. -/
def lookupPageD (m : TablesByPage) (p : Int) : List TableCand :=
  (lookupPage m p).getD []

/-- `tables_by_page.setdefault(p, []).append(c)`: append `c` to the list
at key `p`, creating the key (at the end, python dict insertion order) if
absent. -/
def insertTable : TablesByPage → Int → TableCand → TablesByPage
  | [], p, c => [(p, [c])]
  | (q, l) :: m, p, c => if q = p then (q, l ++ [c]) :: m else (q, l) :: insertTable m p c

/-- `"\n".join(block["information_block"] for block in s["information_blocks"])`. -/
def serializedText (s : Serialized) : String :=
  String.intercalate "\n" (s.information_blocks.map (fun b => b.information_block))

/-- The candidate dict appended for a kept table record
(`{page, text, table_id, length_tokens}`, no `id`/`type` yet). -/
def tableCandOf (ct : String → Nat) (t : TableRecord) (s : Serialized) : TableCand :=
  { page := t.page, text := serializedText s, table_id := t.table_id,
    length_tokens := ct (serializedText s), id := none, type := none }

/-- `TextSplitter._get_serialized_tables_by_page`: group serialized tables
by page number, skipping records without a `serialized` key. -/
def get_serialized_tables_by_page (ct : String → Nat) (tables : List TableRecord) : TablesByPage :=
  tables.foldl (fun m t =>
    match t.serialized with
    | none => m
    | some s => insertTable m t.page (tableCandOf ct t s)) []

/-- `TextSplitter._split_page`: split the page text via the external
splitter and attach `{page, length_tokens, text}` to each piece. -/
def split_page (ct : String → Nat) (st : String → List String) (pg : Page) : List PreChunk :=
  (st pg.text).map (fun c => { page := pg.page, length_tokens := ct c, text := c })

/-- Traversal state of `_split_report`: the (mutable) `tables_by_page`
store, the `chunk_id` counter, and the `chunks` list. -/
structure SplitState where
  store : TablesByPage
  cid : Nat
  chunks : List Entry
  deriving Repr

/-- In-place mutation `l[i]['id'] = cid; l[i]['type'] = 'serialized_table'`
on one candidate dict. -/
def assignCand (cid : Nat) (c : TableCand) : TableCand :=
  { c with id := some cid, type := some "serialized_table" }

/-- Mutate index `i` of a page's candidate list in place. -/
def mutSlot (l : List TableCand) (i : Nat) (cid : Nat) : List TableCand :=
  match l.get? i with
  | some c => l.set i (assignCand cid c)
  | none => l

/-- Write the mutation of candidate `i` of page `p` through to the store. -/
def updateCand (m : TablesByPage) (p : Int) (i : Nat) (cid : Nat) : TablesByPage :=
  m.map (fun e => if e.1 = p then (e.1, mutSlot e.2 i cid) else e)

/-- One iteration of `for chunk in page_chunks: ...` — assign `id`/`type`
to a fresh content dict, bump the counter, append. -/
def appendContent (s : SplitState) (pc : PreChunk) : SplitState :=
  { s with cid := s.cid + 1,
           chunks := s.chunks ++ [Entry.content pc.page pc.text pc.length_tokens s.cid "content"] }

/-- One iteration of `for table in tables_by_page[page['page']]: ...` —
mutate the shared dict at index `i` (id/type), bump the counter, append a
*reference* to it. -/
def assignTable (p : Int) (s : SplitState) (i : Nat) : SplitState :=
  { store := updateCand s.store p i s.cid,
    cid := s.cid + 1,
    chunks := s.chunks ++ [Entry.tableRef p i] }

/-- The body of the page loop of `_split_report`: content chunks first,
then (if the page number is a key of `tables_by_page`) that page's table
dicts. -/
def processPage (ct : String → Nat) (st : String → List String) (s : SplitState) (pg : Page) : SplitState :=
  let s1 := (split_page ct st pg).foldl appendContent s
  match lookupPage s1.store pg.page with
  | none => s1
  | some l => (List.range l.length).foldl (assignTable pg.page) s1

/-- Placeholder chunk for a dangling reference (never reached: every
reference appended by the traversal is valid in the final store). -/
def badChunk : Chunk :=
  { page := 0, text := "", length_tokens := 0, id := none, type := none, table_id := none }

/-- Read an entry of the `chunks` list as it is serialized at the end of
`_split_report`: table references read the *final* state of the shared
dict they point to. -/
def resolve (m : TablesByPage) : Entry → Chunk
  | Entry.content page text lt id ty =>
    { page := page, text := text, length_tokens := lt, id := some id, type := some ty, table_id := none }
  | Entry.tableRef p i =>
    match lookupPage m p with
    | some l =>
      match l.get? i with
      | some c => { page := c.page, text := c.text, length_tokens := c.length_tokens,
                    id := c.id, type := c.type, table_id := some c.table_id }
      | none => badChunk
    | none => badChunk

/-- The initial `tables_by_page` of `_split_report`: empty when no
artifact path is supplied, otherwise grouped from the artifact's tables. -/
def reportTables (ct : String → Nat) (art : Option TableArtifact) : TablesByPage :=
  match art with
  | none => []
  | some a => get_serialized_tables_by_page ct a.tables

/-- `TextSplitter._split_report`: build `tables_by_page` from the artifact
(empty when no artifact is supplied), run the page loop, and store the
resolved chunk list in `content.chunks`. -/
def split_report (ct : String → Nat) (st : String → List String)
    (doc : Document) (art : Option TableArtifact) : Document :=
  let final := doc.pages.foldl (processPage ct st)
    { store := reportTables ct art, cid := 0, chunks := [] }
  { doc with chunks := some (final.chunks.map (resolve final.store)) }

/-- The `content.chunks` field of a processed document ([] if absent). -/
def chunksD (d : Document) : List Chunk :=
  d.chunks.getD []

/-! ## Batch orchestration (`split_all_reports`)

Directories are modeled as association lists from file name to parsed
content; `glob` order is the list order. The only fallible step inside
the loop is `open(serialized_tables_report_path)` at the top of
`_split_report`: when the artifact directory is configured but lacks the
file, the code prints a warning yet still passes the (nonexistent) path
to `_split_report`, whose `open` raises `FileNotFoundError`. There is no
try/except in the loop, so the exception aborts the batch; files written
in earlier iterations remain. -/

/-- The exception escaping `split_all_reports`. -/
inductive BatchError where
  | fileNotFound (name : String)
  deriving DecidableEq, Repr

/-- Observable outcome of `split_all_reports`: output files written (in
order), warnings printed, and the exception (if one aborted the loop). -/
structure BatchResult where
  outputs : List (String × Document)
  warnings : List String
  error : Option BatchError
  deriving DecidableEq, Repr

/-- Look up a file by name in a directory. -/
def dirLookup : List (String × TableArtifact) → String → Option TableArtifact
  | [], _ => none
  | (n, a) :: d, name => if n = name then some a else dirLookup d name

/-- The warning printed for a document whose table artifact is missing. -/
def warnMsg (name : String) : String :=
  "Warning: Could not find serialized tables report for " ++ name

/-- `TextSplitter.split_all_reports`: process each report in directory
order; when an artifact directory is configured, a missing artifact file
is warned about but the path is still handed to `_split_report`, whose
`open` raises and aborts the loop (no output written for that document,
earlier outputs kept). -/
def split_all_reports (ct : String → Nat) (st : String → List String) :
    List (String × Document) → Option (List (String × TableArtifact)) → BatchResult
  | [], _ => { outputs := [], warnings := [], error := none }
  | (name, doc) :: rest, none =>
    let r := split_all_reports ct st rest none
    { r with outputs := (name, split_report ct st doc none) :: r.outputs }
  | (name, doc) :: rest, some d =>
    match dirLookup d name with
    | none =>
      { outputs := [], warnings := [warnMsg name], error := some (BatchError.fileNotFound name) }
    | some a =>
      let r := split_all_reports ct st rest (some d)
      { r with outputs := (name, split_report ct st doc (some a)) :: r.outputs }

/-! ## Spec-side (pure) view of the chunk sequence

`blocks` is the chunk sequence the spec describes: per page, content
chunks (ids assigned in order) followed by that page's table chunks. It
is compared with `split_report` below: the two agree whenever no page
number occurs on more than one page. -/

/-- Content chunks of one page with ids `b, b+1, ...`. -/
def contentChunks (b : Nat) : List PreChunk → List Chunk
  | [] => []
  | pc :: pcs =>
    { page := pc.page, text := pc.text, length_tokens := pc.length_tokens,
      id := some b, type := some "content", table_id := none } :: contentChunks (b + 1) pcs

/-- Table chunks of one page with ids `b, b+1, ...`. -/
def tableChunks (b : Nat) : List TableCand → List Chunk
  | [] => []
  | c :: l =>
    { page := c.page, text := c.text, length_tokens := c.length_tokens,
      id := some b, type := some "serialized_table", table_id := some c.table_id } :: tableChunks (b + 1) l

/-- All chunks emitted for one page: content first, then tables. -/
def pageBlock (ct : String → Nat) (st : String → List String)
    (m : TablesByPage) (b : Nat) (pg : Page) : List Chunk :=
  contentChunks b (split_page ct st pg) ++
    tableChunks (b + (split_page ct st pg).length) (lookupPageD m pg.page)

/-- The chunk sequence for a page list, blocks in page order. -/
def blocks (ct : String → Nat) (st : String → List String)
    (m : TablesByPage) (b : Nat) : List Page → List Chunk
  | [] => []
  | pg :: pages =>
    pageBlock ct st m b pg ++ blocks ct st m (b + (pageBlock ct st m b pg).length) pages

/-- Entries appended for the content chunks of one page. -/
def contentEntries (b : Nat) : List PreChunk → List Entry
  | [] => []
  | pc :: pcs => Entry.content pc.page pc.text pc.length_tokens b "content" :: contentEntries (b + 1) pcs

/-- Entries appended for the table chunks of one page: references to
candidates `0, ..., n-1` of that page's store slot. -/
def tableRefs (p : Int) (n : Nat) : List Entry :=
  (List.range n).map (Entry.tableRef p)

/-- The store slot after all of its candidates were assigned ids
`b, b+1, ...` (the state of a page's dicts after its occurrence in the
page loop). -/
def assignAll (b : Nat) : List TableCand → List TableCand
  | [] => []
  | c :: l => assignCand b c :: assignAll (b + 1) l

/-- The store slot after its first `k` candidates were assigned ids
`b, ..., b+k-1` (intermediate state of the table loop). -/
def assignFirst (b : Nat) : Nat → List TableCand → List TableCand
  | _, [] => []
  | 0, l => l
  | k + 1, c :: l => assignCand b c :: assignFirst (b + 1) k l

/-- The candidate dict built for a kept table record (reads `serialized`
defensively; only applied to records where it is present). -/
def keptCand (ct : String → Nat) (t : TableRecord) : TableCand :=
  tableCandOf ct t (t.serialized.getD { information_blocks := [] })

/-- The spec's content-before-tables property: no `content` chunk follows
a `serialized_table` chunk carrying the same page number. -/
def contentBeforeTables (cs : List Chunk) : Prop :=
  ∀ i : Fin cs.length, ∀ j : Fin cs.length, (i : Nat) < (j : Nat) →
    (cs.get i).page = (cs.get j).page →
    (cs.get i).type = some "serialized_table" → (cs.get j).type ≠ some "content"

instance (cs : List Chunk) : Decidable (contentBeforeTables cs) := by
  unfold contentBeforeTables
  infer_instance

/-- Invariant of the traversal state: store candidates carry the token
count of their own text, content entries do too, and every appended table
reference points to an existing store candidate already tagged
`serialized_table`. -/
def StateInv (ct : String → Nat) (s : SplitState) : Prop :=
  (∀ q l, lookupPage s.store q = some l → ∀ c ∈ l, c.length_tokens = ct c.text) ∧
  (∀ page text lt id ty, Entry.content page text lt id ty ∈ s.chunks → lt = ct text) ∧
  (∀ p i, Entry.tableRef p i ∈ s.chunks →
    ∃ l, lookupPage s.store p = some l ∧
      ∃ c, l[i]? = some c ∧ c.type = some "serialized_table")

/-! ## Concrete inputs for counterexamples and witnesses

`ctA` and `stA` are concrete instantiations of the external token
counter and text splitter. `stA` agrees with the documented behavior of
the real recursive splitter on the texts they are applied to: the empty
text splits to no pieces, and a short text within the token budget
splits to the single piece equal to itself. -/

/-- Concrete token counter (character count). -/
def ctA : String → Nat := fun s => s.length

/-- Concrete text splitter: empty text yields nothing, otherwise one
piece equal to the whole text. -/
def stA : String → List String := fun s => if s = "" then [] else [s]

/-- A one-table artifact on page 1. -/
def artDup : TableArtifact :=
  { tables := [{ page := 1, table_id := "t1",
                 serialized := some { information_blocks := [{ information_block := "X" }] } }] }

/-- A document whose two pages both carry page number 1 and empty text. -/
def docDup : Document :=
  { pages := [{ page := 1, text := "" }, { page := 1, text := "" }], chunks := none }

/-- A document whose two pages both carry page number 1 and text "T". -/
def docDup2 : Document :=
  { pages := [{ page := 1, text := "T" }, { page := 1, text := "T" }], chunks := none }

/-- A small well-formed document (distinct page numbers). -/
def docA : Document :=
  { pages := [{ page := 1, text := "hello" }, { page := 2, text := "" }], chunks := none }

/-- A second small well-formed document. -/
def docB : Document :=
  { pages := [{ page := 5, text := "world" }], chunks := none }

/-- The first output chunk of `docB` processed with `artB` (used by a
witness). -/
def chunkW : Chunk :=
  { page := 5, text := "world", length_tokens := 5, id := some 0,
    type := some "content", table_id := none }

/-- An artifact for `docB`: one table on page 5. -/
def artB : TableArtifact :=
  { tables := [{ page := 5, table_id := "b1",
                 serialized := some { information_blocks := [{ information_block := "Header" }, { information_block := "Row1" }] } }] }

/-! ## Association-list lemmas for the `tables_by_page` dict -/

theorem lookupPage_insert_self (m : TablesByPage) (p : Int) (c : TableCand) :
    lookupPage (insertTable m p c) p = some (lookupPageD m p ++ [c]) := by
  induction m with
  | nil => simp [insertTable, lookupPage, lookupPageD]
  | cons e m ih =>
    obtain ⟨q, l⟩ := e
    by_cases h : q = p
    · subst h
      simp [insertTable, lookupPage, lookupPageD]
    · simp [insertTable, lookupPage, lookupPageD, h, ih]

theorem lookupPage_insert_ne (m : TablesByPage) (p q : Int) (c : TableCand) (h : q ≠ p) :
    lookupPage (insertTable m p c) q = lookupPage m q := by
  induction m with
  | nil => simp [insertTable, lookupPage, Ne.symm h]
  | cons e m ih =>
    obtain ⟨r, l⟩ := e
    by_cases hr : r = p
    · subst hr
      simp [insertTable, lookupPage, Ne.symm h]
    · simp only [insertTable, if_neg hr, lookupPage]
      by_cases hq : r = q
      · simp [hq]
      · simp [hq, ih]

theorem grouping_spec (ct : String → Nat) (tables : List TableRecord) (p : Int) :
    lookupPageD (get_serialized_tables_by_page ct tables) p =
      (tables.filter (fun t => t.page == p && t.serialized.isSome)).map (keptCand ct) := by
  suffices h : ∀ (ts : List TableRecord) (m : TablesByPage),
      lookupPageD (ts.foldl (fun m t =>
        match t.serialized with
        | none => m
        | some s => insertTable m t.page (tableCandOf ct t s)) m) p =
      lookupPageD m p ++ (ts.filter (fun t => t.page == p && t.serialized.isSome)).map (keptCand ct) by
    simpa [get_serialized_tables_by_page, lookupPageD, lookupPage] using h tables []
  intro ts
  induction ts with
  | nil => simp
  | cons t ts ih =>
    intro m
    cases hs : t.serialized with
    | none =>
      simp [List.foldl_cons, hs, List.filter_cons, ih]
    | some s =>
      simp only [List.foldl_cons, hs]
      rw [ih]
      by_cases hp : t.page = p
      · subst hp
        have h1 : lookupPageD (insertTable m t.page (tableCandOf ct t s)) t.page
            = lookupPageD m t.page ++ [tableCandOf ct t s] := by
          simp [lookupPageD, lookupPage_insert_self]
        have h2 : keptCand ct t = tableCandOf ct t s := by
          simp [keptCand, hs]
        simp [h1, List.filter_cons, hs, h2, List.append_assoc]
      · have h1 : lookupPageD (insertTable m t.page (tableCandOf ct t s)) p
            = lookupPageD m p := by
          simp [lookupPageD, lookupPage_insert_ne m t.page p _ (fun hh => hp (Eq.symm hh))]
        simp [h1, List.filter_cons, hp]

/-! ## Batch-level lemmas -/

theorem batch_error_none_of_no_dir (ct : String → Nat) (st : String → List String)
    (reports : List (String × Document)) :
    (split_all_reports ct st reports none).error = none := by
  induction reports with
  | nil => rfl
  | cons r rest ih =>
    obtain ⟨name, doc⟩ := r
    simpa [split_all_reports] using ih

theorem batch_error_mem (ct : String → Nat) (st : String → List String)
    (reports : List (String × Document)) (d : List (String × TableArtifact)) (n : String)
    (h : (split_all_reports ct st reports (some d)).error = some (BatchError.fileNotFound n)) :
    n ∈ reports.map Prod.fst := by
  induction reports with
  | nil => simp [split_all_reports] at h
  | cons r rest ih =>
    obtain ⟨name, doc⟩ := r
    simp only [split_all_reports] at h
    cases hdl : dirLookup d name with
    | none =>
      rw [hdl] at h
      simp at h
      simp [h]
    | some a =>
      rw [hdl] at h
      simp at h
      simp [ih h]

/-! ## Claims about the batch layer (C1, C2, C9) -/

/-- C1: the spec says a configured-but-missing table artifact is only a
warning and chunking completes without tables. The code does print the
warning, but then still passes the nonexistent path to `_split_report`,
whose `open` raises `FileNotFoundError`: chunking of that document does
not complete and no output is written. Evaluated at a one-document batch
whose artifact directory lacks the document's file. -/
theorem c1_missing_artifact_eval :
    split_all_reports ctA stA [("a.json", docA)] (some []) =
      { outputs := [], warnings := [warnMsg "a.json"],
        error := some (BatchError.fileNotFound "a.json") } := by
  rfl

/-- C2 counterexample: a batch of two documents where the first one's
chunking raises (missing configured artifact) and the second one's
artifact is present. The claim says the second document is still
processed and written; in fact the exception aborts the loop and no
output at all is written, in particular none for "b.json". -/
theorem c2_counterexample :
    (split_all_reports ctA stA [("a.json", docA), ("b.json", docB)]
        (some [("b.json", artB)])).outputs = [] ∧
    (split_all_reports ctA stA [("a.json", docA), ("b.json", docB)]
        (some [("b.json", artB)])).error = some (BatchError.fileNotFound "a.json") := by
  exact ⟨rfl, rfl⟩

/-- C2 (amended): an error raised while chunking one document aborts the
batch at that document: every document before it in the batch is still
processed and written (with its artifact), while the failing document and
every document after it are not processed. -/
theorem c2_abort_on_error (ct : String → Nat) (st : String → List String)
    (d : List (String × TableArtifact)) (pre : List (String × Document))
    (name : String) (doc : Document) (rest : List (String × Document))
    (hpre : ∀ p ∈ pre, (dirLookup d p.1).isSome)
    (hmiss : dirLookup d name = none) :
    split_all_reports ct st (pre ++ (name, doc) :: rest) (some d) =
      { outputs := pre.map (fun p => (p.1, split_report ct st p.2 (dirLookup d p.1))),
        warnings := [warnMsg name],
        error := some (BatchError.fileNotFound name) } := by
  induction pre with
  | nil =>
    simp [split_all_reports, hmiss]
  | cons p pre ih =>
    obtain ⟨pn, pd⟩ := p
    have hh := hpre (pn, pd) (by simp)
    obtain ⟨a, ha⟩ := Option.isSome_iff_exists.mp hh
    have ih' := ih (fun q hq => hpre q (by simp [hq]))
    simp only [List.cons_append, split_all_reports, ha]
    simp [ih', ha]

/-- C2 witness: the amended statement at a concrete batch — the document
before the failing one is processed and written, the failing one aborts. -/
theorem c2_abort_on_error_witness :
    split_all_reports ctA stA ([("b.json", docB)] ++ ("a.json", docA) :: [])
        (some [("b.json", artB)]) =
      { outputs := [("b.json", split_report ctA stA docB (dirLookup [("b.json", artB)] "b.json"))],
        warnings := [warnMsg "a.json"],
        error := some (BatchError.fileNotFound "a.json") } :=
  c2_abort_on_error ctA stA [("b.json", artB)] [("b.json", docB)] "a.json" docA []
    (by decide) (by decide)

/-- C9: a document whose chunking fails with an error is not written to
the output directory: `split_all_reports` only writes a document's output
after `_split_report` has returned, so the failing document never reaches
the write. (File names in a directory are distinct.) -/
theorem c9_no_output_on_failure (ct : String → Nat) (st : String → List String)
    (reports : List (String × Document)) (artDir : Option (List (String × TableArtifact)))
    (n : String) (hnd : (reports.map Prod.fst).Nodup)
    (herr : (split_all_reports ct st reports artDir).error = some (BatchError.fileNotFound n)) :
    n ∉ (split_all_reports ct st reports artDir).outputs.map Prod.fst := by
  cases artDir with
  | none =>
    rw [batch_error_none_of_no_dir] at herr
    exact absurd herr (by simp)
  | some d =>
    induction reports with
    | nil => simp [split_all_reports] at herr
    | cons r rest ih =>
      obtain ⟨name, doc⟩ := r
      simp only [split_all_reports] at herr ⊢
      cases hdl : dirLookup d name with
      | none =>
        simp
      | some a =>
        simp only [List.map_cons, List.nodup_cons] at hnd
        rw [hdl] at herr
        have herr' : (split_all_reports ct st rest (some d)).error
            = some (BatchError.fileNotFound n) := herr
        have hmem := batch_error_mem ct st rest d n herr'
        have hne : n ≠ name := fun hh => hnd.1 (hh ▸ hmem)
        have hrest := ih hnd.2 herr'
        show n ∉ List.map Prod.fst ((name, split_report ct st doc (some a)) ::
          (split_all_reports ct st rest (some d)).outputs)
        simp only [List.map_cons, List.mem_cons]
        intro hc
        rcases hc with hc | hc
        · exact hne hc
        · exact hrest hc

/-- C9 witness: concrete failing batch — the failing document "a.json"
is absent from the outputs. -/
theorem c9_no_output_on_failure_witness :
    "a.json" ∉ (split_all_reports ctA stA [("a.json", docA)] (some [])).outputs.map Prod.fst :=
  c9_no_output_on_failure ctA stA [("a.json", docA)] (some []) "a.json"
    (by decide) (by decide)

/-! ## Claim about table grouping (C6) -/

/-- C6: `_get_serialized_tables_by_page` keeps exactly the records that
carry a `serialized` key (skipping the others, with no error) and, for
each kept record, emits exactly one candidate whose `text` is the
record's information blocks joined by a newline, carrying the record's
`table_id` and a token length computed by the token counter, in input
order within each page. -/
theorem c6_grouping (ct : String → Nat) (tables : List TableRecord) (p : Int) :
    lookupPageD (get_serialized_tables_by_page ct tables) p =
      (tables.filter (fun t => t.page == p && t.serialized.isSome)).map (keptCand ct) :=
  grouping_spec ct tables p

/-! ## Characterizing the folds inside the page loop -/

theorem assignFirst_zero (b : Nat) (l : List TableCand) : assignFirst b 0 l = l := by
  cases l <;> rfl

theorem foldl_appendContent (pcs : List PreChunk) (s : SplitState) :
    pcs.foldl appendContent s =
      { store := s.store, cid := s.cid + pcs.length,
        chunks := s.chunks ++ contentEntries s.cid pcs } := by
  induction pcs generalizing s with
  | nil => simp [contentEntries]
  | cons pc pcs ih =>
    simp only [List.foldl_cons, ih, appendContent, contentEntries, List.length_cons]
    simp [List.append_assoc]
    omega

theorem updateCand_cons (r : Int) (l : List TableCand) (m : TablesByPage)
    (p : Int) (i cid : Nat) :
    updateCand ((r, l) :: m) p i cid =
      (if r = p then (r, mutSlot l i cid) else (r, l)) :: updateCand m p i cid := by
  by_cases h : r = p <;> simp [updateCand, h]

theorem lookupPage_updateCand (m : TablesByPage) (p q : Int) (i cid : Nat) :
    lookupPage (updateCand m p i cid) q =
      if q = p then (lookupPage m p).map (fun l => mutSlot l i cid)
      else lookupPage m q := by
  induction m with
  | nil => by_cases hq : q = p <;> simp [updateCand, lookupPage, hq]
  | cons e m ih =>
    obtain ⟨r, l⟩ := e
    rw [updateCand_cons]
    by_cases hr : r = p
    · rw [if_pos hr]
      subst hr
      by_cases hq : r = q
      · subst hq
        simp [lookupPage]
      · have hq' : ¬ q = r := fun hh => hq hh.symm
        simp [lookupPage, hq, hq', ih]
    · rw [if_neg hr]
      by_cases hq : r = q
      · subst hq
        simp [lookupPage, hr, fun hh : r = p => hr hh]
      · simp [lookupPage, hr, hq, ih]

theorem mutSlot_length (l : List TableCand) (i cid : Nat) :
    (mutSlot l i cid).length = l.length := by
  unfold mutSlot
  cases h : l.get? i <;> simp

theorem mutSlot_cons_zero (c : TableCand) (l : List TableCand) (cid : Nat) :
    mutSlot (c :: l) 0 cid = assignCand cid c :: l := by
  simp [mutSlot]

theorem mutSlot_cons_succ (c : TableCand) (l : List TableCand) (i cid : Nat) :
    mutSlot (c :: l) (i + 1) cid = c :: mutSlot l i cid := by
  unfold mutSlot
  simp only [List.get?_eq_getElem?, List.getElem?_cons_succ]
  cases h : l[i]? <;> simp [h, List.set_cons_succ]

theorem mutSlot_assignFirst (l : List TableCand) (b k : Nat) (hk : k < l.length) :
    mutSlot (assignFirst b k l) k (b + k) = assignFirst b (k + 1) l := by
  induction l generalizing b k with
  | nil => simp at hk
  | cons c l ih =>
    cases k with
    | zero =>
      simp [assignFirst_zero, assignFirst, mutSlot_cons_zero]
    | succ k =>
      have hk' : k < l.length := by simpa using hk
      have harith : b + (k + 1) = (b + 1) + k := by omega
      simp only [assignFirst, harith, mutSlot_cons_succ]
      rw [ih (b + 1) k hk']

theorem assignFirst_length_eq (b : Nat) (l : List TableCand) :
    assignFirst b l.length l = assignAll b l := by
  induction l generalizing b with
  | nil => rfl
  | cons c l ih => simp [assignFirst, assignAll, ih]

theorem foldl_assignTable (p : Int) (l : List TableCand) (k : Nat) (s : SplitState)
    (hl : lookupPage s.store p = some l) (hk : k ≤ l.length) :
    ((List.range k).foldl (assignTable p) s).cid = s.cid + k ∧
    ((List.range k).foldl (assignTable p) s).chunks = s.chunks ++ tableRefs p k ∧
    lookupPage ((List.range k).foldl (assignTable p) s).store p = some (assignFirst s.cid k l) ∧
    ∀ q, q ≠ p → lookupPage ((List.range k).foldl (assignTable p) s).store q = lookupPage s.store q := by
  induction k with
  | zero =>
    simp [tableRefs, assignFirst_zero, hl]
  | succ k ih =>
    have hk' : k ≤ l.length := Nat.le_of_succ_le hk
    obtain ⟨ih1, ih2, ih3, ih4⟩ := ih hk'
    rw [List.range_succ, List.foldl_append]
    simp only [List.foldl_cons, List.foldl_nil]
    refine ⟨?_, ?_, ?_, ?_⟩
    · simp only [assignTable, ih1]
      omega
    · simp [assignTable, ih2, tableRefs, List.range_succ, List.append_assoc]
    · show lookupPage (updateCand ((List.range k).foldl (assignTable p) s).store p k
        ((List.range k).foldl (assignTable p) s).cid) p = _
      rw [lookupPage_updateCand, if_pos rfl, ih3, ih1]
      simp only [Option.map_some']
      rw [mutSlot_assignFirst l s.cid k (Nat.lt_of_succ_le hk)]
    · intro q hq
      show lookupPage (updateCand ((List.range k).foldl (assignTable p) s).store p k
        ((List.range k).foldl (assignTable p) s).cid) q = _
      rw [lookupPage_updateCand, if_neg hq, ih4 q hq]

/-! ## Characterizing one iteration of the page loop -/

theorem processPage_none (ct : String → Nat) (st : String → List String) (s : SplitState)
    (pg : Page) (h : lookupPage s.store pg.page = none) :
    processPage ct st s pg =
      { store := s.store, cid := s.cid + (split_page ct st pg).length,
        chunks := s.chunks ++ contentEntries s.cid (split_page ct st pg) } := by
  unfold processPage
  rw [foldl_appendContent]
  simp [h]

theorem processPage_some (ct : String → Nat) (st : String → List String) (s : SplitState)
    (pg : Page) (l : List TableCand) (h : lookupPage s.store pg.page = some l) :
    (processPage ct st s pg).cid = s.cid + (split_page ct st pg).length + l.length ∧
    (processPage ct st s pg).chunks =
      s.chunks ++ contentEntries s.cid (split_page ct st pg) ++ tableRefs pg.page l.length ∧
    lookupPage (processPage ct st s pg).store pg.page =
      some (assignAll (s.cid + (split_page ct st pg).length) l) ∧
    ∀ q, q ≠ pg.page → lookupPage (processPage ct st s pg).store q = lookupPage s.store q := by
  have hP : processPage ct st s pg =
      (List.range l.length).foldl (assignTable pg.page)
        { store := s.store, cid := s.cid + (split_page ct st pg).length,
          chunks := s.chunks ++ contentEntries s.cid (split_page ct st pg) } := by
    unfold processPage
    rw [foldl_appendContent]
    simp [h]
  have hT := foldl_assignTable pg.page l l.length
      { store := s.store, cid := s.cid + (split_page ct st pg).length,
        chunks := s.chunks ++ contentEntries s.cid (split_page ct st pg) }
      (by simpa using h) le_rfl
  obtain ⟨h1, h2, h3, h4⟩ := hT
  rw [assignFirst_length_eq] at h3
  refine ⟨?_, ?_, ?_, ?_⟩
  · rw [hP]
    exact h1
  · rw [hP]
    exact h2
  · rw [hP]
    exact h3
  · intro q hq
    rw [hP]
    exact h4 q hq

/-! ## Resolving entry lists -/

theorem not_tableRef_mem_contentEntries (b : Nat) (pcs : List PreChunk) (p : Int) (i : Nat) :
    Entry.tableRef p i ∉ contentEntries b pcs := by
  induction pcs generalizing b with
  | nil => simp [contentEntries]
  | cons pc pcs ih => simp [contentEntries, ih]

theorem tableRefs_mem (p : Int) (n : Nat) (e : Entry) (h : e ∈ tableRefs p n) :
    ∃ i, i < n ∧ e = Entry.tableRef p i := by
  simp only [tableRefs, List.mem_map, List.mem_range] at h
  obtain ⟨i, hi, he⟩ := h
  exact ⟨i, hi, he.symm⟩

theorem resolve_congr (m1 m2 : TablesByPage) (es : List Entry)
    (h : ∀ p i, Entry.tableRef p i ∈ es → lookupPage m1 p = lookupPage m2 p) :
    es.map (resolve m1) = es.map (resolve m2) := by
  induction es with
  | nil => rfl
  | cons e es ih =>
    have h1 : resolve m1 e = resolve m2 e := by
      cases e with
      | content page text lt id ty => rfl
      | tableRef p i =>
        have hh := h p i (by simp)
        simp [resolve, hh]
    have h2 := ih (fun p i hm => h p i (List.mem_cons_of_mem _ hm))
    simp [h1, h2]

theorem map_resolve_contentEntries (m : TablesByPage) (b : Nat) (pcs : List PreChunk) :
    (contentEntries b pcs).map (resolve m) = contentChunks b pcs := by
  induction pcs generalizing b with
  | nil => rfl
  | cons pc pcs ih => simp [contentEntries, contentChunks, resolve, ih]

theorem assignAll_getElem? (b : Nat) (l : List TableCand) (i : Nat) :
    (assignAll b l)[i]? = l[i]?.map (fun c => assignCand (b + i) c) := by
  induction l generalizing b i with
  | nil => simp [assignAll]
  | cons c l ih =>
    cases i with
    | zero => simp [assignAll]
    | succ i =>
      simp only [assignAll, List.getElem?_cons_succ]
      rw [show b + (i + 1) = (b + 1) + i by omega]
      exact ih (b + 1) i

theorem assignAll_length (b : Nat) (l : List TableCand) :
    (assignAll b l).length = l.length := by
  induction l generalizing b with
  | nil => rfl
  | cons c l ih => simp [assignAll, ih]

theorem contentChunks_length (b : Nat) (pcs : List PreChunk) :
    (contentChunks b pcs).length = pcs.length := by
  induction pcs generalizing b with
  | nil => rfl
  | cons pc pcs ih => simp [contentChunks, ih]

theorem tableChunks_length (b : Nat) (l : List TableCand) :
    (tableChunks b l).length = l.length := by
  induction l generalizing b with
  | nil => rfl
  | cons c l ih => simp [tableChunks, ih]

theorem tableChunks_getElem? (b : Nat) (l : List TableCand) (i : Nat) :
    (tableChunks b l)[i]? = l[i]?.map (fun c =>
      { page := c.page, text := c.text, length_tokens := c.length_tokens,
        id := some (b + i), type := some "serialized_table", table_id := some c.table_id }) := by
  induction l generalizing b i with
  | nil => simp [tableChunks]
  | cons c l ih =>
    cases i with
    | zero => simp [tableChunks]
    | succ i =>
      simp only [tableChunks, List.getElem?_cons_succ]
      rw [show b + (i + 1) = (b + 1) + i by omega]
      exact ih (b + 1) i

theorem map_resolve_tableRefs (m : TablesByPage) (p : Int) (b : Nat) (l : List TableCand)
    (h : lookupPage m p = some (assignAll b l)) :
    (tableRefs p l.length).map (resolve m) = tableChunks b l := by
  apply List.ext_getElem
  · simp [tableRefs, tableChunks_length]
  · intro n h1 h2
    have hn : n < l.length := by simpa [tableRefs] using h1
    have hln : l[n]? = some l[n] := List.getElem?_eq_getElem hn
    simp only [tableRefs, List.getElem_map, List.getElem_range]
    have hres : resolve m (Entry.tableRef p n) =
        { page := l[n].page, text := l[n].text, length_tokens := l[n].length_tokens,
          id := some (b + n), type := some "serialized_table", table_id := some l[n].table_id } := by
      simp only [resolve, h]
      rw [List.get?_eq_getElem?, assignAll_getElem?, hln]
      simp [assignCand]
    rw [hres]
    have hR := tableChunks_getElem? b l n
    rw [hln] at hR
    simp only [Option.map_some'] at hR
    rw [List.getElem?_eq_getElem h2] at hR
    exact (Option.some_injective _ hR).symm

/-! ## The `blocks` view only reads the store at the given pages -/

theorem pageBlock_congr (ct : String → Nat) (st : String → List String)
    (m1 m2 : TablesByPage) (b : Nat) (pg : Page)
    (h : lookupPage m1 pg.page = lookupPage m2 pg.page) :
    pageBlock ct st m1 b pg = pageBlock ct st m2 b pg := by
  simp [pageBlock, lookupPageD, h]

theorem blocks_congr (ct : String → Nat) (st : String → List String)
    (m1 m2 : TablesByPage) (pages : List Page) :
    ∀ b : Nat, (∀ pg ∈ pages, lookupPage m1 pg.page = lookupPage m2 pg.page) →
      blocks ct st m1 b pages = blocks ct st m2 b pages := by
  induction pages with
  | nil =>
    intro b h
    rfl
  | cons pg pages ih =>
    intro b h
    have h1 := pageBlock_congr ct st m1 m2 b pg (h pg (by simp))
    simp only [blocks, h1]
    rw [ih _ (fun pg' hm => h pg' (List.mem_cons_of_mem _ hm))]

/-! ## Main characterization of the page loop

When no page number occurs on more than one page, the traversal (with
its in-place mutation of shared table dicts) produces exactly the pure
per-page `blocks` sequence. -/

theorem report_loop_spec (ct : String → Nat) (st : String → List String) (pages : List Page) :
    ∀ s : SplitState,
      (pages.map Page.page).Nodup →
      (∀ p i, Entry.tableRef p i ∈ s.chunks → p ∉ pages.map Page.page) →
      ((pages.foldl (processPage ct st) s).chunks).map
          (resolve (pages.foldl (processPage ct st) s).store)
        = s.chunks.map (resolve s.store) ++ blocks ct st s.store s.cid pages ∧
      (pages.foldl (processPage ct st) s).cid
        = s.cid + (blocks ct st s.store s.cid pages).length ∧
      (∀ q, q ∉ pages.map Page.page →
        lookupPage (pages.foldl (processPage ct st) s).store q = lookupPage s.store q) := by
  induction pages with
  | nil =>
    intro s _ _
    refine ⟨by simp [blocks], by simp [blocks], fun q _ => rfl⟩
  | cons pg pages ih =>
    intro s hnd hrefs
    simp only [List.map_cons, List.nodup_cons] at hnd
    obtain ⟨hpg, hnd'⟩ := hnd
    rw [List.foldl_cons]
    cases hl : lookupPage s.store pg.page with
    | none =>
      have hP := processPage_none ct st s pg hl
      have hrefs1 : ∀ p i, Entry.tableRef p i ∈ (processPage ct st s pg).chunks →
          p ∉ pages.map Page.page := by
        intro p i hm
        rw [hP] at hm
        replace hm : Entry.tableRef p i ∈
            s.chunks ++ contentEntries s.cid (split_page ct st pg) := hm
        rcases List.mem_append.mp hm with hm | hm
        · exact fun hc => hrefs p i hm (by simp [hc])
        · exact absurd hm (not_tableRef_mem_contentEntries _ _ _ _)
      obtain ⟨ihA, ihB, ihC⟩ := ih (processPage ct st s pg) hnd' hrefs1
      have hpb : pageBlock ct st s.store s.cid pg = contentChunks s.cid (split_page ct st pg) := by
        simp [pageBlock, lookupPageD, hl, tableChunks]
      have hpblen : (pageBlock ct st s.store s.cid pg).length = (split_page ct st pg).length := by
        rw [hpb, contentChunks_length]
      refine ⟨?_, ?_, ?_⟩
      · rw [ihA, hP]
        simp only [blocks, hpb, hpblen]
        simp [map_resolve_contentEntries, List.append_assoc]
        rw [contentChunks_length]
      · rw [ihB, hP]
        simp only [blocks, hpb, hpblen, List.length_append, contentChunks_length]
        omega
      · intro q hq
        have hq1 : q ∉ pages.map Page.page := fun hc => hq (by simp [hc])
        rw [ihC q hq1, hP]
    | some l =>
      obtain ⟨h1, h2, h3, h4⟩ := processPage_some ct st s pg l hl
      have hrefs1 : ∀ p i, Entry.tableRef p i ∈ (processPage ct st s pg).chunks →
          p ∉ pages.map Page.page := by
        intro p i hm
        rw [h2] at hm
        rcases List.mem_append.mp hm with hm | hm
        · rcases List.mem_append.mp hm with hm | hm
          · exact fun hc => hrefs p i hm (by simp [hc])
          · exact absurd hm (not_tableRef_mem_contentEntries _ _ _ _)
        · obtain ⟨j, _, he⟩ := tableRefs_mem _ _ _ hm
          injection he with hp hi
          subst hp
          exact hpg
      obtain ⟨ihA, ihB, ihC⟩ := ih (processPage ct st s pg) hnd' hrefs1
      have hmagree : ∀ pg' ∈ pages,
          lookupPage (processPage ct st s pg).store pg'.page = lookupPage s.store pg'.page := by
        intro pg' hm
        apply h4
        intro hc
        exact hpg (hc ▸ List.mem_map_of_mem Page.page hm)
      have hblocks := blocks_congr ct st (processPage ct st s pg).store s.store pages
        (processPage ct st s pg).cid hmagree
      have holdres : s.chunks.map (resolve (processPage ct st s pg).store)
          = s.chunks.map (resolve s.store) :=
        resolve_congr _ _ _ (fun p i hm => h4 p (fun hc => hrefs p i hm (by simp [hc])))
      have htres : (tableRefs pg.page l.length).map (resolve (processPage ct st s pg).store)
          = tableChunks (s.cid + (split_page ct st pg).length) l :=
        map_resolve_tableRefs _ pg.page _ l h3
      have hpb : pageBlock ct st s.store s.cid pg
          = contentChunks s.cid (split_page ct st pg) ++
            tableChunks (s.cid + (split_page ct st pg).length) l := by
        simp [pageBlock, lookupPageD, hl]
      have hpblen : (pageBlock ct st s.store s.cid pg).length
          = (split_page ct st pg).length + l.length := by
        rw [hpb]
        simp [contentChunks_length, tableChunks_length]
      have hbase : s.cid + ((split_page ct st pg).length + l.length)
          = s.cid + (split_page ct st pg).length + l.length := by
        omega
      refine ⟨?_, ?_, ?_⟩
      · rw [ihA, h2, hblocks, h1]
        simp only [List.map_append, map_resolve_contentEntries, holdres, htres]
        simp only [blocks, hpb, hpblen, hbase]
        simp [List.append_assoc]
        rw [contentChunks_length, tableChunks_length, hbase]
      · rw [ihB, hblocks, h1]
        simp only [blocks, hpblen, hbase, List.length_append]
        omega
      · intro q hq
        have hq1 : q ∉ pages.map Page.page := fun hc => hq (by simp [hc])
        have hq2 : q ≠ pg.page := fun hc => hq (by simp [hc])
        rw [ihC q hq1, h4 q hq2]

/-! ## The chunk list of a processed document -/

theorem split_report_chunks (ct : String → Nat) (st : String → List String)
    (doc : Document) (art : Option TableArtifact)
    (hnd : (doc.pages.map Page.page).Nodup) :
    chunksD (split_report ct st doc art) =
      blocks ct st (reportTables ct art) 0 doc.pages := by
  obtain ⟨hA, _, _⟩ := report_loop_spec ct st doc.pages
    { store := reportTables ct art, cid := 0, chunks := [] } hnd (by simp)
  simpa [split_report, chunksD] using hA

/-! ## Ids of the pure block view -/

theorem contentChunks_map_id (b : Nat) (pcs : List PreChunk) :
    (contentChunks b pcs).map Chunk.id = (List.range' b pcs.length).map some := by
  induction pcs generalizing b with
  | nil => rfl
  | cons pc pcs ih => simp [contentChunks, List.range'_succ, ih]

theorem tableChunks_map_id (b : Nat) (l : List TableCand) :
    (tableChunks b l).map Chunk.id = (List.range' b l.length).map some := by
  induction l generalizing b with
  | nil => rfl
  | cons c l ih => simp [tableChunks, List.range'_succ, ih]

theorem range'_map_some_append (b m n : Nat) :
    (List.range' b m).map (some : Nat → Option Nat) ++ (List.range' (b + m) n).map some
      = (List.range' b (m + n)).map some := by
  rw [← List.map_append]
  congr 1
  have h := List.range'_append b m n 1
  simp only [one_mul] at h
  rw [Nat.add_comm n m] at h
  exact h

theorem blocks_map_id (ct : String → Nat) (st : String → List String)
    (m : TablesByPage) (pages : List Page) :
    ∀ b : Nat, (blocks ct st m b pages).map Chunk.id
      = (List.range' b (blocks ct st m b pages).length).map some := by
  induction pages with
  | nil =>
    intro b
    rfl
  | cons pg pages ih =>
    intro b
    have hpb : (pageBlock ct st m b pg).map Chunk.id
        = (List.range' b (pageBlock ct st m b pg).length).map some := by
      simp only [pageBlock, List.map_append, contentChunks_map_id, tableChunks_map_id,
        List.length_append, contentChunks_length, tableChunks_length]
      exact range'_map_some_append b _ _
    simp only [blocks, List.map_append, hpb, ih, List.length_append]
    exact range'_map_some_append b _ _

/-! ## Claims C3 and C4 (chunk ids and in-place mutation) -/

/-- C3 counterexample: a document whose two pages both carry page number 1,
with one table on page 1. The table dict is appended twice and its id is
overwritten in place at the second occurrence, so the output ids are
`[1, 1]`, not the contiguous `0, 1`. -/
theorem c3_counterexample :
    (chunksD (split_report ctA stA docDup (some artDup))).map Chunk.id ≠
      (List.range (chunksD (split_report ctA stA docDup (some artDup))).length).map some := by
  decide

/-- C3 (amended): provided no page number occurs on more than one page of
the document, the output chunk ids are exactly the contiguous sequence
`0, 1, ..., N-1` in output order. -/
theorem c3_ids_contiguous (ct : String → Nat) (st : String → List String)
    (doc : Document) (art : Option TableArtifact)
    (hnd : (doc.pages.map Page.page).Nodup) :
    (chunksD (split_report ct st doc art)).map Chunk.id
      = (List.range (chunksD (split_report ct st doc art)).length).map some := by
  rw [split_report_chunks ct st doc art hnd, List.range_eq_range']
  exact blocks_map_id ct st (reportTables ct art) doc.pages 0

/-- C3 witness: the amended statement at a concrete document (one page,
one table): ids come out `0, 1`. -/
theorem c3_ids_contiguous_witness :
    (docB.pages.map Page.page).Nodup ∧
    (chunksD (split_report ctA stA docB (some artB))).map Chunk.id
      = (List.range (chunksD (split_report ctA stA docB (some artB))).length).map some :=
  ⟨by decide, c3_ids_contiguous ctA stA docB (some artB) (by decide)⟩

/-- C4: chunk records are mutated after being appended. On a document
whose two pages both carry page number 1 with one table on page 1, the
table dict is appended with id 0 at the first occurrence and then mutated
in place to id 1 at the second occurrence (and appended again), so the
serialized output shows `[(1, serialized_table), (1, serialized_table)]`
— the first appended chunk no longer carries the id it was assigned at
the moment it was appended. -/
theorem c4_mutation_eval :
    (chunksD (split_report ctA stA docDup (some artDup))).map (fun c => (c.id, c.type)) =
      [(some 1, some "serialized_table"), (some 1, some "serialized_table")] := by
  decide

/-! ## Page numbers and types of the block view -/

theorem contentChunks_type (b : Nat) (pcs : List PreChunk) :
    ∀ c ∈ contentChunks b pcs, c.type = some "content" := by
  induction pcs generalizing b with
  | nil => simp [contentChunks]
  | cons pc pcs ih =>
    intro c hc
    rcases List.mem_cons.mp hc with hc | hc
    · rw [hc]
    · exact ih (b + 1) c hc

theorem tableChunks_type (b : Nat) (l : List TableCand) :
    ∀ c ∈ tableChunks b l, c.type = some "serialized_table" := by
  induction l generalizing b with
  | nil => simp [tableChunks]
  | cons cd l ih =>
    intro c hc
    rcases List.mem_cons.mp hc with hc | hc
    · rw [hc]
    · exact ih (b + 1) c hc

theorem contentChunks_page (b : Nat) (pcs : List PreChunk) (p : Int)
    (h : ∀ pc ∈ pcs, pc.page = p) :
    ∀ c ∈ contentChunks b pcs, c.page = p := by
  induction pcs generalizing b with
  | nil => simp [contentChunks]
  | cons pc pcs ih =>
    intro c hc
    rcases List.mem_cons.mp hc with hc | hc
    · rw [hc]
      exact h pc (by simp)
    · exact ih (b + 1) (fun pc' h' => h pc' (List.mem_cons_of_mem _ h')) c hc

theorem tableChunks_page (b : Nat) (l : List TableCand) (p : Int)
    (h : ∀ cd ∈ l, cd.page = p) :
    ∀ c ∈ tableChunks b l, c.page = p := by
  induction l generalizing b with
  | nil => simp [tableChunks]
  | cons cd l ih =>
    intro c hc
    rcases List.mem_cons.mp hc with hc | hc
    · rw [hc]
      exact h cd (by simp)
    · exact ih (b + 1) (fun cd' h' => h cd' (List.mem_cons_of_mem _ h')) c hc

theorem split_page_page (ct : String → Nat) (st : String → List String) (pg : Page) :
    ∀ pc ∈ split_page ct st pg, pc.page = pg.page := by
  intro pc h
  simp only [split_page, List.mem_map] at h
  obtain ⟨a, _, he⟩ := h
  rw [← he]

theorem grouping_page_key (ct : String → Nat) (tables : List TableRecord) :
    ∀ q l, lookupPage (get_serialized_tables_by_page ct tables) q = some l →
      ∀ c ∈ l, c.page = q := by
  intro q l h c hc
  have hD := grouping_spec ct tables q
  rw [lookupPageD, h] at hD
  simp only [Option.getD_some] at hD
  rw [hD] at hc
  simp only [List.mem_map] at hc
  obtain ⟨t, ht, he⟩ := hc
  have hf := List.of_mem_filter ht
  simp only [Bool.and_eq_true, beq_iff_eq] at hf
  rw [← he]
  simp [keptCand, tableCandOf, hf.1]

theorem reportTables_page_key (ct : String → Nat) (art : Option TableArtifact) :
    ∀ q l, lookupPage (reportTables ct art) q = some l → ∀ c ∈ l, c.page = q := by
  intro q l h
  cases art with
  | none => simp [reportTables, lookupPage] at h
  | some a => exact grouping_page_key ct a.tables q l h

theorem lookupPageD_page_key (m : TablesByPage)
    (hkey : ∀ q l, lookupPage m q = some l → ∀ c ∈ l, c.page = q) (p : Int) :
    ∀ c ∈ lookupPageD m p, c.page = p := by
  intro c hc
  rw [lookupPageD] at hc
  cases h : lookupPage m p with
  | none =>
    rw [h] at hc
    simp at hc
  | some l =>
    rw [h] at hc
    exact hkey p l h c hc

theorem pageBlock_page (ct : String → Nat) (st : String → List String)
    (m : TablesByPage) (b : Nat) (pg : Page)
    (hkey : ∀ q l, lookupPage m q = some l → ∀ c ∈ l, c.page = q) :
    ∀ c ∈ pageBlock ct st m b pg, c.page = pg.page := by
  intro c hc
  rcases List.mem_append.mp hc with hc | hc
  · exact contentChunks_page b _ pg.page (split_page_page ct st pg) c hc
  · exact tableChunks_page _ _ pg.page (lookupPageD_page_key m hkey pg.page) c hc

theorem blocks_page_mem (ct : String → Nat) (st : String → List String)
    (m : TablesByPage)
    (hkey : ∀ q l, lookupPage m q = some l → ∀ c ∈ l, c.page = q)
    (pages : List Page) :
    ∀ b, ∀ c ∈ blocks ct st m b pages, c.page ∈ pages.map Page.page := by
  induction pages with
  | nil =>
    intro b c hc
    simp [blocks] at hc
  | cons pg pages ih =>
    intro b c hc
    simp only [blocks] at hc
    rcases List.mem_append.mp hc with hc | hc
    · simp [pageBlock_page ct st m b pg hkey c hc]
    · simp [ih _ c hc]

/-! ## Content-before-tables -/

theorem cbt_content_then_tables (xs ys : List Chunk)
    (hx : ∀ c ∈ xs, c.type = some "content")
    (hy : ∀ c ∈ ys, c.type = some "serialized_table") :
    contentBeforeTables (xs ++ ys) := by
  intro i j hij _ hi hj
  by_cases hjlt : (j : Nat) < xs.length
  · have hilt : (i : Nat) < xs.length := lt_trans hij hjlt
    have hmem : (xs ++ ys).get i ∈ xs := by
      rw [List.get_eq_getElem, List.getElem_append_left hilt]
      exact List.getElem_mem _
    have hct := hx _ hmem
    rw [hct] at hi
    simp at hi
  · push_neg at hjlt
    have hmem : (xs ++ ys).get j ∈ ys := by
      rw [List.get_eq_getElem, List.getElem_append_right hjlt]
      exact List.getElem_mem _
    have hct := hy _ hmem
    rw [hct] at hj
    simp at hj

theorem cbt_append_disjoint (xs ys : List Chunk)
    (hdis : ∀ c ∈ xs, ∀ d ∈ ys, c.page ≠ d.page)
    (hx : contentBeforeTables xs) (hy : contentBeforeTables ys) :
    contentBeforeTables (xs ++ ys) := by
  intro i j hij hpage hi hj
  by_cases hilt : (i : Nat) < xs.length
  · by_cases hjlt : (j : Nat) < xs.length
    · have e1 : (xs ++ ys).get i = xs.get ⟨i, hilt⟩ := by
        rw [List.get_eq_getElem, List.get_eq_getElem, List.getElem_append_left hilt]
      have e2 : (xs ++ ys).get j = xs.get ⟨j, hjlt⟩ := by
        rw [List.get_eq_getElem, List.get_eq_getElem, List.getElem_append_left hjlt]
      rw [e1] at hpage hi
      rw [e2] at hpage hj
      exact hx ⟨i, hilt⟩ ⟨j, hjlt⟩ hij hpage hi hj
    · push_neg at hjlt
      have m1 : (xs ++ ys).get i ∈ xs := by
        rw [List.get_eq_getElem, List.getElem_append_left hilt]
        exact List.getElem_mem _
      have m2 : (xs ++ ys).get j ∈ ys := by
        rw [List.get_eq_getElem, List.getElem_append_right hjlt]
        exact List.getElem_mem _
      exact absurd hpage (hdis _ m1 _ m2)
  · push_neg at hilt
    have hjge : xs.length ≤ (j : Nat) := le_trans hilt (le_of_lt hij)
    have hi2 : (i : Nat) - xs.length < ys.length := by
      have h2 := i.2
      simp only [List.length_append] at h2
      omega
    have hj2 : (j : Nat) - xs.length < ys.length := by
      have h2 := j.2
      simp only [List.length_append] at h2
      omega
    have e1 : (xs ++ ys).get i = ys.get ⟨(i : Nat) - xs.length, hi2⟩ := by
      rw [List.get_eq_getElem, List.get_eq_getElem, List.getElem_append_right hilt]
    have e2 : (xs ++ ys).get j = ys.get ⟨(j : Nat) - xs.length, hj2⟩ := by
      rw [List.get_eq_getElem, List.get_eq_getElem, List.getElem_append_right hjge]
    rw [e1] at hpage hi
    rw [e2] at hpage hj
    refine hy ⟨_, hi2⟩ ⟨_, hj2⟩ ?_ hpage hi hj
    show (i : Nat) - xs.length < (j : Nat) - xs.length
    omega

theorem blocks_cbt (ct : String → Nat) (st : String → List String) (m : TablesByPage)
    (hkey : ∀ q l, lookupPage m q = some l → ∀ c ∈ l, c.page = q)
    (pages : List Page) :
    ∀ b, (pages.map Page.page).Nodup → contentBeforeTables (blocks ct st m b pages) := by
  induction pages with
  | nil =>
    intro b _ i
    exact Fin.elim0 i
  | cons pg pages ih =>
    intro b hnd
    simp only [List.map_cons, List.nodup_cons] at hnd
    obtain ⟨hpg, hnd'⟩ := hnd
    show contentBeforeTables
      (pageBlock ct st m b pg ++ blocks ct st m (b + (pageBlock ct st m b pg).length) pages)
    apply cbt_append_disjoint
    · intro c hc d hd
      have h1 := pageBlock_page ct st m b pg hkey c hc
      have h2 := blocks_page_mem ct st m hkey pages _ d hd
      rw [h1]
      intro he
      exact hpg (he ▸ h2)
    · show contentBeforeTables
        (contentChunks b (split_page ct st pg) ++
          tableChunks (b + (split_page ct st pg).length) (lookupPageD m pg.page))
      exact cbt_content_then_tables _ _ (contentChunks_type _ _) (tableChunks_type _ _)
    · exact ih _ hnd'

theorem blocks_map_page (ct : String → Nat) (st : String → List String) (m : TablesByPage)
    (hkey : ∀ q l, lookupPage m q = some l → ∀ c ∈ l, c.page = q)
    (pages : List Page) :
    ∀ b, ∃ counts : List Nat, counts.length = pages.length ∧
      (blocks ct st m b pages).map Chunk.page
        = (pages.zip counts).flatMap (fun x => List.replicate x.2 x.1.page) := by
  induction pages with
  | nil =>
    intro b
    exact ⟨[], rfl, by simp [blocks]⟩
  | cons pg pages ih =>
    intro b
    obtain ⟨counts, hlen, hmap⟩ := ih (b + (pageBlock ct st m b pg).length)
    refine ⟨(pageBlock ct st m b pg).length :: counts, by simp [hlen], ?_⟩
    show (pageBlock ct st m b pg ++
      blocks ct st m (b + (pageBlock ct st m b pg).length) pages).map Chunk.page = _
    rw [List.map_append, hmap]
    have hrep : (pageBlock ct st m b pg).map Chunk.page
        = List.replicate (pageBlock ct st m b pg).length pg.page := by
      refine List.eq_replicate_iff.mpr ⟨by simp, ?_⟩
      intro x hx
      simp only [List.mem_map] at hx
      obtain ⟨c, hc, he⟩ := hx
      rw [← he]
      exact pageBlock_page ct st m b pg hkey c hc
    rw [hrep]
    simp [List.zip_cons_cons, List.flatMap_cons]

/-! ## Claim C5 (page grouping and content-before-tables) -/

/-- C5 counterexample: a document whose two pages both carry page number
1, with one table on page 1. The second occurrence's content chunk is
emitted after the first occurrence's table chunk for the same page
number, so the content-before-tables property fails. -/
theorem c5_counterexample :
    ¬ contentBeforeTables (chunksD (split_report ctA stA docDup2 (some artDup))) := by
  decide

/-- C5 (amended): provided no page number occurs on more than one page of
the document, the output chunks are grouped by page in original document
order (the page sequence is a concatenation of per-page repeats), all
content chunks of a page precede all serialized_table chunks of that
page, and no chunk carries a page number outside the input pages. -/
theorem c5_page_grouping (ct : String → Nat) (st : String → List String)
    (doc : Document) (art : Option TableArtifact)
    (hnd : (doc.pages.map Page.page).Nodup) :
    (∃ counts : List Nat, counts.length = doc.pages.length ∧
      (chunksD (split_report ct st doc art)).map Chunk.page
        = (doc.pages.zip counts).flatMap (fun x => List.replicate x.2 x.1.page)) ∧
    contentBeforeTables (chunksD (split_report ct st doc art)) ∧
    ∀ c ∈ chunksD (split_report ct st doc art), c.page ∈ doc.pages.map Page.page := by
  have hkey := reportTables_page_key ct art
  rw [split_report_chunks ct st doc art hnd]
  exact ⟨blocks_map_page ct st _ hkey doc.pages 0,
    blocks_cbt ct st _ hkey doc.pages 0 hnd,
    blocks_page_mem ct st _ hkey doc.pages 0⟩

/-- C5 witness: the amended statement at a concrete one-page document
with one table. -/
theorem c5_page_grouping_witness :
    (docB.pages.map Page.page).Nodup ∧
    ((∃ counts : List Nat, counts.length = docB.pages.length ∧
      (chunksD (split_report ctA stA docB (some artB))).map Chunk.page
        = (docB.pages.zip counts).flatMap (fun x => List.replicate x.2 x.1.page)) ∧
    contentBeforeTables (chunksD (split_report ctA stA docB (some artB))) ∧
    ∀ c ∈ chunksD (split_report ctA stA docB (some artB)), c.page ∈ docB.pages.map Page.page) :=
  ⟨by decide, c5_page_grouping ctA stA docB (some artB) (by decide)⟩

/-! ## The traversal invariant (token counts and valid references) -/

theorem mem_of_getElem_some {α : Type} {l : List α} {i : Nat} {a : α}
    (h : l[i]? = some a) : a ∈ l := by
  obtain ⟨hlt, he⟩ := List.getElem?_eq_some.mp h
  rw [← he]
  exact List.getElem_mem _

theorem mem_contentEntries (b : Nat) (pcs : List PreChunk)
    (page : Int) (text : String) (lt id : Nat) (ty : String)
    (h : Entry.content page text lt id ty ∈ contentEntries b pcs) :
    ∃ pc ∈ pcs, page = pc.page ∧ text = pc.text ∧ lt = pc.length_tokens := by
  induction pcs generalizing b with
  | nil => simp [contentEntries] at h
  | cons pc pcs ih =>
    rcases List.mem_cons.mp h with hc | hc
    · injection hc with h1 h2 h3 _ _
      exact ⟨pc, by simp, h1, h2, h3⟩
    · obtain ⟨pc', hm, he⟩ := ih (b + 1) hc
      exact ⟨pc', List.mem_cons_of_mem _ hm, he⟩

theorem split_page_tok (ct : String → Nat) (st : String → List String) (pg : Page) :
    ∀ pc ∈ split_page ct st pg, pc.length_tokens = ct pc.text := by
  intro pc h
  simp only [split_page, List.mem_map] at h
  obtain ⟨a, _, he⟩ := h
  rw [← he]

theorem not_content_mem_tableRefs (p : Int) (n : Nat)
    (page : Int) (text : String) (lt id : Nat) (ty : String) :
    Entry.content page text lt id ty ∉ tableRefs p n := by
  intro h
  obtain ⟨i, _, he⟩ := tableRefs_mem p n _ h
  exact Entry.noConfusion he

theorem assignAll_mem (b : Nat) (l : List TableCand) (c' : TableCand)
    (h : c' ∈ assignAll b l) : ∃ k c, c ∈ l ∧ c' = assignCand k c := by
  induction l generalizing b with
  | nil => simp [assignAll] at h
  | cons c l ih =>
    rcases List.mem_cons.mp h with hc | hc
    · exact ⟨b, c, by simp, hc⟩
    · obtain ⟨k, c0, hm, he⟩ := ih (b + 1) hc
      exact ⟨k, c0, List.mem_cons_of_mem _ hm, he⟩

theorem grouping_tok (ct : String → Nat) (tables : List TableRecord) :
    ∀ q l, lookupPage (get_serialized_tables_by_page ct tables) q = some l →
      ∀ c ∈ l, c.length_tokens = ct c.text := by
  intro q l h c hc
  have hD := grouping_spec ct tables q
  rw [lookupPageD, h] at hD
  simp only [Option.getD_some] at hD
  rw [hD] at hc
  simp only [List.mem_map] at hc
  obtain ⟨t, _, he⟩ := hc
  rw [← he]
  simp [keptCand, tableCandOf]

theorem reportTables_tok (ct : String → Nat) (art : Option TableArtifact) :
    ∀ q l, lookupPage (reportTables ct art) q = some l →
      ∀ c ∈ l, c.length_tokens = ct c.text := by
  intro q l h
  cases art with
  | none => simp [reportTables, lookupPage] at h
  | some a => exact grouping_tok ct a.tables q l h

theorem stateInv_init (ct : String → Nat) (art : Option TableArtifact) :
    StateInv ct { store := reportTables ct art, cid := 0, chunks := [] } := by
  refine ⟨?_, by simp, by simp⟩
  exact reportTables_tok ct art

theorem assignAll_type_at (b : Nat) (l : List TableCand) (i : Nat) (hi : i < l.length) :
    ∃ c, (assignAll b l)[i]? = some c ∧ c.type = some "serialized_table" := by
  have hlt1 : i < (assignAll b l).length := by
    rw [assignAll_length]
    exact hi
  refine ⟨(assignAll b l)[i], List.getElem?_eq_getElem hlt1, ?_⟩
  have h := assignAll_getElem? b l i
  rw [List.getElem?_eq_getElem hlt1, List.getElem?_eq_getElem hi] at h
  simp only [Option.map_some'] at h
  rw [Option.some_inj.mp h]
  rfl

theorem stateInv_processPage (ct : String → Nat) (st : String → List String)
    (s : SplitState) (pg : Page) (h : StateInv ct s) :
    StateInv ct (processPage ct st s pg) := by
  obtain ⟨h1, h2, h3⟩ := h
  cases hl : lookupPage s.store pg.page with
  | none =>
    rw [processPage_none ct st s pg hl]
    refine ⟨h1, ?_, ?_⟩
    · intro page text lt id ty hm
      replace hm : Entry.content page text lt id ty ∈
          s.chunks ++ contentEntries s.cid (split_page ct st pg) := hm
      rcases List.mem_append.mp hm with hm | hm
      · exact h2 page text lt id ty hm
      · obtain ⟨pc, hpc, _, htext, hlt⟩ := mem_contentEntries _ _ _ _ _ _ _ hm
        rw [hlt, htext]
        exact split_page_tok ct st pg pc hpc
    · intro p i hm
      replace hm : Entry.tableRef p i ∈
          s.chunks ++ contentEntries s.cid (split_page ct st pg) := hm
      rcases List.mem_append.mp hm with hm | hm
      · exact h3 p i hm
      · exact absurd hm (not_tableRef_mem_contentEntries _ _ _ _)
  | some l =>
    obtain ⟨hc1, hc2, hc3, hc4⟩ := processPage_some ct st s pg l hl
    refine ⟨?_, ?_, ?_⟩
    · intro q l' hq c hc
      by_cases hqp : q = pg.page
      · subst hqp
        rw [hc3] at hq
        injection hq with hq
        rw [← hq] at hc
        obtain ⟨k, c0, hm0, he0⟩ := assignAll_mem _ _ _ hc
        rw [he0]
        simpa [assignCand] using h1 pg.page l hl c0 hm0
      · rw [hc4 q hqp] at hq
        exact h1 q l' hq c hc
    · intro page text lt id ty hm
      rw [hc2] at hm
      rcases List.mem_append.mp hm with hm | hm
      · rcases List.mem_append.mp hm with hm | hm
        · exact h2 page text lt id ty hm
        · obtain ⟨pc, hpc, _, htext, hlt⟩ := mem_contentEntries _ _ _ _ _ _ _ hm
          rw [hlt, htext]
          exact split_page_tok ct st pg pc hpc
      · exact absurd hm (not_content_mem_tableRefs _ _ _ _ _ _ _)
    · intro p i hm
      rw [hc2] at hm
      rcases List.mem_append.mp hm with hm | hm
      · rcases List.mem_append.mp hm with hm | hm
        · obtain ⟨l0, hlook0, c0, hget0, hty0⟩ := h3 p i hm
          by_cases hqp : p = pg.page
          · subst hqp
            rw [hl] at hlook0
            injection hlook0 with hlook0
            subst hlook0
            obtain ⟨hlt0, _⟩ := List.getElem?_eq_some.mp hget0
            exact ⟨assignAll (s.cid + (split_page ct st pg).length) l, hc3,
              assignAll_type_at _ l i hlt0⟩
          · refine ⟨l0, ?_, c0, hget0, hty0⟩
            rw [hc4 p hqp]
            exact hlook0
        · exact absurd hm (not_tableRef_mem_contentEntries _ _ _ _)
      · obtain ⟨j, hj, he⟩ := tableRefs_mem _ _ _ hm
        injection he with hp hi2
        subst hp
        subst hi2
        exact ⟨assignAll (s.cid + (split_page ct st pg).length) l, hc3,
          assignAll_type_at _ l _ hj⟩

theorem stateInv_foldl (ct : String → Nat) (st : String → List String) (pages : List Page) :
    ∀ s, StateInv ct s → StateInv ct (pages.foldl (processPage ct st) s) := by
  induction pages with
  | nil => exact fun s h => h
  | cons pg pages ih =>
    intro s h
    exact ih (processPage ct st s pg) (stateInv_processPage ct st s pg h)

/-! ## Claims C7, C8, C10 -/

theorem chunksD_split_report (ct : String → Nat) (st : String → List String)
    (doc : Document) (art : Option TableArtifact) :
    chunksD (split_report ct st doc art) =
      (doc.pages.foldl (processPage ct st)
          { store := reportTables ct art, cid := 0, chunks := [] }).chunks.map
        (resolve (doc.pages.foldl (processPage ct st)
          { store := reportTables ct art, cid := 0, chunks := [] }).store) := by
  simp [split_report, chunksD]

/-- C7: every output chunk (content or serialized_table) carries a
`length_tokens` equal to the token counter applied to that exact chunk's
`text`. This holds for every document and artifact, including documents
with repeated page numbers: the in-place id mutation never touches the
`text` or `length_tokens` of a table dict. -/
theorem c7_length_tokens (ct : String → Nat) (st : String → List String)
    (doc : Document) (art : Option TableArtifact) :
    ∀ c ∈ chunksD (split_report ct st doc art), c.length_tokens = ct c.text := by
  intro c hc
  rw [chunksD_split_report] at hc
  obtain ⟨hi1, hi2, hi3⟩ := stateInv_foldl ct st doc.pages
    { store := reportTables ct art, cid := 0, chunks := [] } (stateInv_init ct art)
  simp only [List.mem_map] at hc
  obtain ⟨e, he, hres⟩ := hc
  cases e with
  | content page text lt id ty =>
    rw [← hres]
    simp only [resolve]
    exact hi2 page text lt id ty he
  | tableRef p i =>
    obtain ⟨l, hlook, c0, hget, _⟩ := hi3 p i he
    rw [← hres]
    simp only [resolve, hlook]
    rw [List.get?_eq_getElem?]
    simp only [hget]
    exact hi1 p l hlook c0 (mem_of_getElem_some hget)

/-- C7 witness: the first chunk of a concrete processed document carries
`length_tokens = ctA "world"`. -/
theorem c7_length_tokens_witness :
    chunkW ∈ chunksD (split_report ctA stA docB (some artB)) ∧
    chunkW.length_tokens = ctA chunkW.text :=
  ⟨by decide, c7_length_tokens ctA stA docB (some artB) chunkW (by decide)⟩

theorem no_content_page (ct : String → Nat) (st : String → List String)
    (p : Int) (hst : st "" = []) (pages : List Page) :
    ∀ s : SplitState,
      (∀ pg ∈ pages, pg.page = p → pg.text = "") →
      (∀ page text lt id ty, Entry.content page text lt id ty ∈ s.chunks → page ≠ p) →
      ∀ page text lt id ty,
        Entry.content page text lt id ty ∈ (pages.foldl (processPage ct st) s).chunks →
          page ≠ p := by
  induction pages with
  | nil => exact fun s _ hs => hs
  | cons pg pages ih =>
    intro s hp hs
    rw [List.foldl_cons]
    apply ih (processPage ct st s pg) (fun pg' h' hpp => hp pg' (List.mem_cons_of_mem _ h') hpp)
    intro page text lt id ty hm
    cases hl : lookupPage s.store pg.page with
    | none =>
      rw [processPage_none ct st s pg hl] at hm
      replace hm : Entry.content page text lt id ty ∈
          s.chunks ++ contentEntries s.cid (split_page ct st pg) := hm
      rcases List.mem_append.mp hm with hm | hm
      · exact hs page text lt id ty hm
      · obtain ⟨pc, hpc, hpage, _, _⟩ := mem_contentEntries _ _ _ _ _ _ _ hm
        rw [hpage, split_page_page ct st pg pc hpc]
        intro hpp
        have hempty := hp pg (by simp) hpp
        simp [split_page, hempty, hst] at hpc
    | some l =>
      obtain ⟨_, hc2, _, _⟩ := processPage_some ct st s pg l hl
      rw [hc2] at hm
      rcases List.mem_append.mp hm with hm | hm
      · rcases List.mem_append.mp hm with hm | hm
        · exact hs page text lt id ty hm
        · obtain ⟨pc, hpc, hpage, _, _⟩ := mem_contentEntries _ _ _ _ _ _ _ hm
          rw [hpage, split_page_page ct st pg pc hpc]
          intro hpp
          have hempty := hp pg (by simp) hpp
          simp [split_page, hempty, hst] at hpc
      · exact absurd hm (not_content_mem_tableRefs _ _ _ _ _ _ _)

/-- C8: the splitter yields no pieces for empty text (the documented
behavior of the external splitter, taken as the hypothesis `st "" = []`),
so a page whose text is empty contributes zero content chunks; every
output chunk carrying that page's number is a serialized_table chunk. -/
theorem c8_empty_page (ct : String → Nat) (st : String → List String)
    (doc : Document) (art : Option TableArtifact) (p : Int)
    (hst : st "" = [])
    (hp : ∀ pg ∈ doc.pages, pg.page = p → pg.text = "") :
    split_page ct st { page := p, text := "" } = [] ∧
    ∀ c ∈ chunksD (split_report ct st doc art), c.page = p →
      c.type = some "serialized_table" := by
  constructor
  · simp [split_page, hst]
  · intro c hc hcp
    rw [chunksD_split_report] at hc
    obtain ⟨hi1, hi2, hi3⟩ := stateInv_foldl ct st doc.pages
      { store := reportTables ct art, cid := 0, chunks := [] } (stateInv_init ct art)
    have hnc := no_content_page ct st p hst doc.pages
      { store := reportTables ct art, cid := 0, chunks := [] } hp (by simp)
    simp only [List.mem_map] at hc
    obtain ⟨e, he, hres⟩ := hc
    cases e with
    | content page text lt id ty =>
      have hne := hnc page text lt id ty he
      rw [← hres] at hcp
      simp only [resolve] at hcp
      exact absurd hcp hne
    | tableRef pp i =>
      obtain ⟨l, hlook, c0, hget, hty⟩ := hi3 pp i he
      rw [← hres]
      simp only [resolve, hlook]
      rw [List.get?_eq_getElem?]
      simp only [hget]
      exact hty

/-- C8 witness: a concrete document whose pages with number 1 all have
empty text, with a table artifact on page 1 — every page-1 output chunk
is a serialized_table chunk. -/
theorem c8_empty_page_witness :
    stA "" = [] ∧
    (∀ pg ∈ docDup.pages, pg.page = 1 → pg.text = "") ∧
    (split_page ctA stA { page := 1, text := "" } = [] ∧
      ∀ c ∈ chunksD (split_report ctA stA docDup (some artDup)), c.page = 1 →
        c.type = some "serialized_table") :=
  ⟨by decide, by decide,
    c8_empty_page ctA stA docDup (some artDup) 1 (by decide) (by decide)⟩

theorem contentChunks_filter_tables (b : Nat) (pcs : List PreChunk) :
    (contentChunks b pcs).filter (fun c => c.type == some "serialized_table") = [] := by
  rw [List.filter_eq_nil_iff]
  intro c hc
  have hty := contentChunks_type b pcs c hc
  simp [hty]

/-- C10: a table record whose `serialized.information_blocks` is empty is
not excluded (only a missing `serialized` key excludes a record): it
yields exactly one serialized_table chunk whose text is the empty string
and whose length is the token count of the empty string. -/
theorem c10_empty_blocks (ct : String → Nat) (st : String → List String)
    (p : Int) (tid : String) (txt : String) :
    ((chunksD (split_report ct st
        { pages := [{ page := p, text := txt }], chunks := none }
        (some
          { tables :=
              [{ page := p, table_id := tid,
                 serialized := some { information_blocks := [] } }] }))).filter
      (fun c => c.type == some "serialized_table")).map
        (fun c => (c.page, c.text, c.length_tokens, c.table_id))
      = [(p, "", ct "", some tid)] := by
  rw [split_report_chunks ct st
    { pages := [{ page := p, text := txt }], chunks := none }
    (some
      { tables :=
          [{ page := p, table_id := tid,
             serialized := some { information_blocks := [] } }] }) (by simp)]
  have hD : lookupPageD (reportTables ct
      (some
        { tables :=
            [{ page := p, table_id := tid,
               serialized := some { information_blocks := [] } }] })) p
      = [{ page := p, text := "", table_id := tid, length_tokens := ct "",
           id := none, type := none }] := by
    show lookupPageD (get_serialized_tables_by_page ct
      [{ page := p, table_id := tid,
         serialized := some { information_blocks := [] } }]) p = _
    rw [grouping_spec]
    have hi : String.intercalate "\n" ([] : List String) = "" := rfl
    simp [keptCand, tableCandOf, serializedText, hi]
  simp only [blocks, pageBlock, List.append_nil]
  rw [hD]
  rw [List.filter_append, contentChunks_filter_tables, List.nil_append]
  simp [tableChunks]
